import Mathlib

set_option maxRecDepth 8192

/-- A language profile: name, file extensions, line-comment tokens and
block-comment start/end token lists, mirroring `LanguageConfig` in the source.
Strings are modelled as lists of characters. -/
structure LanguageConfig where
  name : List Char
  extensions : List (List Char)
  line_comment : List (List Char)
  block_comment_start : List (List Char)
  block_comment_end : List (List Char)
  deriving DecidableEq

/-- Per-file line statistics, mirroring `FileStats` in the source.
Counters are modelled as `Nat`. -/
structure FileStats where
  files : Nat
  blank_lines : Nat
  comment_lines : Nat
  code_lines : Nat
  deriving DecidableEq

/-- Component-wise addition, mirroring `impl Add for FileStats`. -/
instance : Add FileStats :=
  ⟨fun a b =>
    ⟨a.files + b.files, a.blank_lines + b.blank_lines,
     a.comment_lines + b.comment_lines, a.code_lines + b.code_lines⟩⟩

/-- `FileStats::default()`: all counters zero. -/
def zeroStats : FileStats := ⟨0, 0, 0, 0⟩

/-- The classification of one line, mirroring `LineType` in the source. -/
inductive LineType where
  | Blank
  | Comment
  | Code
  deriving DecidableEq

/-- Rust `str::trim`: remove leading and trailing whitespace. -/
def trim (s : List Char) : List Char :=
  ((s.dropWhile Char.isWhitespace).reverse.dropWhile Char.isWhitespace).reverse

/-- Whether the first list is an initial segment of the second. -/
def startsWith : List Char → List Char → Bool
  | [], _ => true
  | _ :: _, [] => false
  | a :: ns, b :: hs => a == b && startsWith ns hs

/-- Rust `str::find`: position of the first occurrence of `needle` in `hay`
(`some 0` for an empty needle, as in Rust). -/
def strFind (needle : List Char) : List Char → Option Nat
  | [] => if startsWith needle [] then some 0 else none
  | c :: t =>
    if startsWith needle (c :: t) then some 0
    else (strFind needle t).map (fun p => p + 1)

/-- The block-comment-start scan of `classify_line`: iterate over the start
tokens with their index, keeping the strictly earliest match position, its
token length, and the matching end token (`block_comment_end.get(i)`,
defaulting to the empty string). -/
def blockScan (ends : List (List Char)) (hay : List Char) :
    List (List Char) → Nat → Option (Nat × Nat × List Char) →
    Option (Nat × Nat × List Char)
  | [], _, acc => acc
  | s :: rest, i, acc =>
    let acc2 :=
      match strFind s hay with
      | some pos =>
        match acc with
        | none => some (pos, s.length, (ends[i]?).getD [])
        | some best =>
          if pos < best.1 then some (pos, s.length, (ends[i]?).getD []) else acc
      | none => acc
    blockScan ends hay rest (i + 1) acc2

/-- The line-comment scan of `classify_line`: earliest match position over all
line-comment tokens. -/
def lineScan (hay : List Char) : List (List Char) → Option Nat → Option Nat
  | [], acc => acc
  | s :: rest, acc =>
    let acc2 :=
      match strFind s hay with
      | some pos =>
        match acc with
        | none => some pos
        | some best => if pos < best then some pos else acc
      | none => acc
    lineScan hay rest acc2

/-- One execution of the scanning loop of `FileAnalyzer::classify_line`,
with explicit fuel: each loop iteration consumes one unit of fuel, and `none`
models non-termination (which the Rust loop exhibits for degenerate profiles
with empty comment tokens).  The result carries the classification together
with the final `in_block_comment` and `current_block_end` state. -/
def classifyLoop (cfg : LanguageConfig) :
    Nat → List Char → Bool → List Char → Bool →
    Option (LineType × Bool × List Char)
  | 0, _, _, _, _ => none
  | Nat.succ fuel, rem, inB, cEnd, hasCode =>
    if inB then
      match strFind cEnd rem with
      | some ep => classifyLoop cfg fuel (rem.drop (ep + cEnd.length)) false [] hasCode
      | none => some (if hasCode then LineType.Code else LineType.Comment, true, cEnd)
    else
      match blockScan cfg.block_comment_end rem cfg.block_comment_start 0 none,
            lineScan rem cfg.line_comment none with
      | some (bp, bl, me), some lp =>
        if bp ≤ lp then
          classifyLoop cfg fuel (rem.drop (bp + bl)) true me
            (hasCode || (decide (0 < bp) && !(trim (rem.take bp)).isEmpty))
        else
          some (if hasCode || (decide (0 < lp) && !(trim (rem.take lp)).isEmpty) then
                  LineType.Code else LineType.Comment, false, cEnd)
      | some (bp, bl, me), none =>
        classifyLoop cfg fuel (rem.drop (bp + bl)) true me
          (hasCode || (decide (0 < bp) && !(trim (rem.take bp)).isEmpty))
      | none, some lp =>
        some (if hasCode || (decide (0 < lp) && !(trim (rem.take lp)).isEmpty) then
                LineType.Code else LineType.Comment, false, cEnd)
      | none, none =>
        some (if hasCode || !(trim rem).isEmpty then LineType.Code
              else if (trim rem).isEmpty then LineType.Blank else LineType.Code,
              false, cEnd)

/-- `FileAnalyzer::classify_line`: run the scanning loop on a line, starting
with `has_code = false`.  The fuel `line.length + 2` is shown sufficient for
every profile of the registry (see the totality theorem). -/
def classify_line (cfg : LanguageConfig) (line : List Char) (inB : Bool)
    (cEnd : List Char) : Option (LineType × Bool × List Char) :=
  classifyLoop cfg (line.length + 2) line inB cEnd false

/-- The reading loop of `FileAnalyzer::analyze_file`: each element of the list
is one `line_result` of the `BufReader` (`Except.error` models a failed read,
which aborts the whole analysis via `?`).  A line is trimmed; if empty it is
counted blank without consulting the classifier, otherwise the trimmed line is
classified and the matching counter incremented. -/
def analyzeReads (cfg : LanguageConfig) :
    List (Except Unit (List Char)) → Bool → List Char → FileStats →
    Option FileStats
  | [], _, _, stats => some stats
  | Except.error _ :: _, _, _, _ => none
  | Except.ok l :: rest, inB, cEnd, stats =>
    let t := trim l
    if t.isEmpty then
      analyzeReads cfg rest inB cEnd
        { stats with blank_lines := stats.blank_lines + 1 }
    else
      match classify_line cfg t inB cEnd with
      | none => none
      | some (lt, inB2, cEnd2) =>
        match lt with
        | LineType.Blank =>
          analyzeReads cfg rest inB2 cEnd2
            { stats with blank_lines := stats.blank_lines + 1 }
        | LineType.Comment =>
          analyzeReads cfg rest inB2 cEnd2
            { stats with comment_lines := stats.comment_lines + 1 }
        | LineType.Code =>
          analyzeReads cfg rest inB2 cEnd2
            { stats with code_lines := stats.code_lines + 1 }

/-- A file as the analyzer sees it: `none` if `File::open` fails, otherwise
the sequence of per-line read results. -/
abbrev FileInput := Option (List (Except Unit (List Char)))

/-- `FileAnalyzer::analyze_file`: open the file, then run the reading loop
with fresh classifier state and `files = 1`. -/
def analyze_file (cfg : LanguageConfig) (f : FileInput) : Option FileStats :=
  match f with
  | none => none
  | some reads => analyzeReads cfg reads false [] ⟨1, 0, 0, 0⟩

/-- One step of the aggregation fold of `analyze_files`:
`acc[lang] = acc.get(lang).unwrap_or_default() + stats`.
The aggregate map is modelled as a function from language names. -/
def agStep (acc : List Char → FileStats) (entry : List Char × FileStats) :
    List Char → FileStats :=
  fun k => if k = entry.1 then acc k + entry.2 else acc k

/-- The aggregation fold of `analyze_files` over the collected per-file
results. -/
def aggregate (results : List (List Char × FileStats)) : List Char → FileStats :=
  results.foldl agStep (fun _ => zeroStats)

/-- `analyze_files`: analyze every file, drop the failures (`Err(_) => None`),
and fold the successful `(language name, FileStats)` pairs into the aggregate
map. -/
def analyze_files (files : List (FileInput × LanguageConfig)) :
    List Char → FileStats :=
  aggregate (files.filterMap
    (fun fc => (analyze_file fc.2 fc.1).map (fun s => (fc.2.name, s))))

/-- An apostrophe character, written by code point to keep token lists
readable. -/
def squote : Char := Char.ofNat 39

def rustConfig : LanguageConfig :=
  ⟨"Rust".data, ["rs".data], ["//".data], ["/*".data], ["*/".data]⟩

def cppConfig : LanguageConfig :=
  ⟨"C/C++".data, ["c".data, "cpp".data, "cc".data, "cxx".data, "h".data, "hpp".data],
   ["//".data], ["/*".data], ["*/".data]⟩

def pythonConfig : LanguageConfig :=
  ⟨"Python".data, ["py".data, "pyw".data], ["#".data],
   ["\"\"\"".data, [squote, squote, squote]],
   ["\"\"\"".data, [squote, squote, squote]]⟩

def javascriptConfig : LanguageConfig :=
  ⟨"JavaScript".data, ["js".data, "jsx".data, "mjs".data],
   ["//".data], ["/*".data], ["*/".data]⟩

def typescriptConfig : LanguageConfig :=
  ⟨"TypeScript".data, ["ts".data, "tsx".data],
   ["//".data], ["/*".data], ["*/".data]⟩

def javaConfig : LanguageConfig :=
  ⟨"Java".data, ["java".data], ["//".data], ["/*".data], ["*/".data]⟩

def csharpConfig : LanguageConfig :=
  ⟨"C#".data, ["cs".data], ["//".data], ["/*".data], ["*/".data]⟩

def goConfig : LanguageConfig :=
  ⟨"Go".data, ["go".data], ["//".data], ["/*".data], ["*/".data]⟩

def shellConfig : LanguageConfig :=
  ⟨"Shell".data, ["sh".data, "bash".data, "zsh".data], ["#".data], [], []⟩

def powershellConfig : LanguageConfig :=
  ⟨"PowerShell".data, ["ps1".data, "psm1".data, "psd1".data],
   ["#".data], ["<#".data], ["#>".data]⟩

def htmlConfig : LanguageConfig :=
  ⟨"HTML".data, ["html".data, "htm".data, "xml".data],
   [], ["<!--".data], ["-->".data]⟩

def cssConfig : LanguageConfig :=
  ⟨"CSS".data, ["css".data], [], ["/*".data], ["*/".data]⟩

def sqlConfig : LanguageConfig :=
  ⟨"SQL".data, ["sql".data], ["--".data], ["/*".data], ["*/".data]⟩

def rubyConfig : LanguageConfig :=
  ⟨"Ruby".data, ["rb".data], ["#".data], ["=begin".data], ["=end".data]⟩

def phpConfig : LanguageConfig :=
  ⟨"PHP".data, ["php".data], ["//".data, "#".data], ["/*".data], ["*/".data]⟩

def yamlConfig : LanguageConfig :=
  ⟨"YAML".data, ["yaml".data, "yml".data], ["#".data], [], []⟩

def jsonConfig : LanguageConfig :=
  ⟨"JSON".data, ["json".data], [], [], []⟩

def markdownConfig : LanguageConfig :=
  ⟨"Markdown".data, ["md".data, "markdown".data], [], ["<!--".data], ["-->".data]⟩

/-- The language registry built by `LanguageDatabase::add_languages`, in
source order. -/
def registry : List LanguageConfig :=
  [rustConfig, cppConfig, pythonConfig, javascriptConfig, typescriptConfig,
   javaConfig, csharpConfig, goConfig, shellConfig, powershellConfig,
   htmlConfig, cssConfig, sqlConfig, rubyConfig, phpConfig, yamlConfig,
   jsonConfig, markdownConfig]

/-- Well-formedness of a profile, as the registry provides it: all comment
tokens are non-empty and the start/end token lists have equal length. -/
def wfConfig (cfg : LanguageConfig) : Bool :=
  cfg.line_comment.all (fun t => !t.isEmpty) &&
  cfg.block_comment_start.all (fun t => !t.isEmpty) &&
  cfg.block_comment_end.all (fun t => !t.isEmpty) &&
  (cfg.block_comment_start.length == cfg.block_comment_end.length)

/-- Every comment token that can open a comment contains a non-whitespace
character (true of every registry profile). -/
def tokensNonWs (cfg : LanguageConfig) : Bool :=
  cfg.line_comment.all (fun t => !t.all Char.isWhitespace) &&
  cfg.block_comment_start.all (fun t => !t.all Char.isWhitespace)

/-- A profile whose line-comment token and a block-comment start token can
match at the same character offset, exercising the tie-break of the scanner
(the registry's token sets never tie, but the rule is general). -/
def tieConfig : LanguageConfig :=
  ⟨"Tie".data, [], ["//".data], ["//*".data], ["*//".data]⟩

/-- Lines that consist only of whitespace and of block comments that are both
opened and closed on the same line, phrased through the scanner's own
searches: either the line is whitespace-only, or the earliest match of the
scans is a block-comment start (no line-comment token strictly earlier)
preceded only by whitespace, its end token occurs in the rest of the line,
and what follows the end token is again of the same shape. -/
inductive Blankish (cfg : LanguageConfig) : List Char → Prop where
  | ws : ∀ s : List Char, (trim s).isEmpty = true → Blankish cfg s
  | block : ∀ (rem : List Char) (bp bl : Nat) (me : List Char) (ep : Nat),
      blockScan cfg.block_comment_end rem cfg.block_comment_start 0 none =
        some (bp, bl, me) →
      (∀ lp, lineScan rem cfg.line_comment none = some lp → bp ≤ lp) →
      (trim (rem.take bp)).isEmpty = true →
      0 < bl → me ≠ [] →
      strFind me (rem.drop (bp + bl)) = some ep →
      Blankish cfg ((rem.drop (bp + bl)).drop (ep + me.length)) →
      Blankish cfg rem


lemma fs_add_def (a b : FileStats) :
    a + b = ⟨a.files + b.files, a.blank_lines + b.blank_lines,
             a.comment_lines + b.comment_lines, a.code_lines + b.code_lines⟩ := rfl

lemma fs_add_comm (a b : FileStats) : a + b = b + a := by
  cases a; cases b
  simp only [fs_add_def, FileStats.mk.injEq]
  omega

lemma fs_add_assoc (a b c : FileStats) : a + b + c = a + (b + c) := by
  cases a; cases b; cases c
  simp only [fs_add_def, FileStats.mk.injEq]
  omega

lemma fs_add_zero (a : FileStats) : a + zeroStats = a := by
  cases a
  simp only [zeroStats, fs_add_def, FileStats.mk.injEq]
  omega

lemma fs_zero_add (a : FileStats) : zeroStats + a = a := by
  cases a
  simp only [zeroStats, fs_add_def, FileStats.mk.injEq]
  omega

lemma dropWhile_append_all (p : Char → Bool) (w l : List Char)
    (h : w.all p = true) :
    List.dropWhile p (w ++ l) = List.dropWhile p l := by
  induction w with
  | nil => rfl
  | cons c t ih =>
    simp only [List.all_cons, Bool.and_eq_true] at h
    simp only [List.cons_append, List.dropWhile_cons, h.1, if_true]
    exact ih h.2

lemma all_of_dropWhile_eq_nil (p : Char → Bool) (l : List Char)
    (h : List.dropWhile p l = []) : l.all p = true := by
  rw [List.all_eq_true]
  exact List.dropWhile_eq_nil_iff.mp h

lemma takeWhile_all (p : Char → Bool) (l : List Char) :
    (List.takeWhile p l).all p = true := by
  induction l with
  | nil => rfl
  | cons c t ih =>
    by_cases hc : p c = true
    · simp [List.takeWhile_cons, hc, ih]
    · simp [List.takeWhile_cons, hc]

lemma trim_eq_nil_iff (s : List Char) :
    trim s = [] ↔ s.all Char.isWhitespace = true := by
  constructor
  · intro h
    unfold trim at h
    rw [List.reverse_eq_nil_iff] at h
    have h2 := all_of_dropWhile_eq_nil _ _ h
    rw [List.all_reverse] at h2
    have h3 := takeWhile_all Char.isWhitespace s
    have h4 := List.takeWhile_append_dropWhile Char.isWhitespace s
    rw [← h4, List.all_append, h3, h2]
    rfl
  · intro h
    unfold trim
    have h1 : List.dropWhile Char.isWhitespace s = [] := by
      rw [List.dropWhile_eq_nil_iff]
      exact List.all_eq_true.mp h
    rw [h1]
    rfl

lemma startsWith_le_length :
    ∀ (n h : List Char), startsWith n h = true → n.length ≤ h.length
  | [], _, _ => Nat.zero_le _
  | _ :: _, [], hsw => by simp [startsWith] at hsw
  | _ :: ns, _ :: hs, hsw => by
    simp only [startsWith, Bool.and_eq_true] at hsw
    simpa using Nat.succ_le_succ (startsWith_le_length ns hs hsw.2)

lemma startsWith_mem :
    ∀ (n h : List Char) (c : Char), startsWith n h = true → c ∈ n → c ∈ h
  | [], _, c, _, hc => absurd hc (List.not_mem_nil c)
  | _ :: _, [], _, hsw, _ => by simp [startsWith] at hsw
  | a :: ns, b :: hs, c, hsw, hc => by
    simp only [startsWith, Bool.and_eq_true, beq_iff_eq] at hsw
    rcases List.mem_cons.mp hc with h1 | h2
    · exact List.mem_cons.mpr (Or.inl (h1.trans hsw.1))
    · exact List.mem_cons.mpr (Or.inr (startsWith_mem ns hs c hsw.2 h2))

lemma strFind_nil_needle : ∀ (h : List Char), strFind [] h = some 0
  | [] => rfl
  | _ :: _ => rfl

lemma strFind_le :
    ∀ (n h : List Char) (p : Nat), strFind n h = some p → p + n.length ≤ h.length := by
  intro n h
  induction h with
  | nil =>
    intro p hf
    by_cases hs : startsWith n [] = true
    · simp only [strFind, hs, if_true, Option.some.injEq] at hf
      subst hf
      simpa using startsWith_le_length n [] hs
    · simp [strFind, hs] at hf
  | cons c t ih =>
    intro p hf
    by_cases hs : startsWith n (c :: t) = true
    · simp only [strFind, hs, if_true, Option.some.injEq] at hf
      subst hf
      simpa using startsWith_le_length n (c :: t) hs
    · simp only [strFind, hs, if_false, Bool.false_eq_true] at hf
      rcases Option.map_eq_some'.mp hf with ⟨p0, hp0, hpe⟩
      have := ih p0 hp0
      subst hpe
      simp only [List.length_cons]
      omega

lemma strFind_mem :
    ∀ (n h : List Char) (p : Nat) (c : Char),
      strFind n h = some p → c ∈ n → c ∈ h := by
  intro n h
  induction h with
  | nil =>
    intro p c hf hc
    by_cases hs : startsWith n [] = true
    · exact startsWith_mem n [] c hs hc
    · simp [strFind, hs] at hf
  | cons b t ih =>
    intro p c hf hc
    by_cases hs : startsWith n (b :: t) = true
    · exact startsWith_mem n (b :: t) c hs hc
    · simp only [strFind, hs, if_false, Bool.false_eq_true] at hf
      rcases Option.map_eq_some'.mp hf with ⟨p0, hp0, _⟩
      exact List.mem_cons.mpr (Or.inr (ih p0 c hp0 hc))

lemma strFind_none_of_ws (n h : List Char)
    (hws : h.all Char.isWhitespace = true)
    (hn : n.all Char.isWhitespace = false) : strFind n h = none := by
  cases hf : strFind n h with
  | none => rfl
  | some p =>
    rcases List.all_eq_false.mp hn with ⟨c, hcn, hcw⟩
    have hch := strFind_mem n h p c hf hcn
    exact absurd (List.all_eq_true.mp hws c hch) hcw

lemma blockScan_none (ends : List (List Char)) (hay : List Char) :
    ∀ (L : List (List Char)) (i : Nat),
      (∀ s ∈ L, strFind s hay = none) → blockScan ends hay L i none = none := by
  intro L
  induction L with
  | nil => intro i _; rfl
  | cons s rest ih =>
    intro i h
    have hs := h s (List.mem_cons_self s rest)
    simp only [blockScan, hs]
    exact ih (i + 1) (fun x hx => h x (List.mem_cons.mpr (Or.inr hx)))

lemma lineScan_none (hay : List Char) :
    ∀ (L : List (List Char)),
      (∀ s ∈ L, strFind s hay = none) → lineScan hay L none = none := by
  intro L
  induction L with
  | nil => intro _; rfl
  | cons s rest ih =>
    intro h
    have hs := h s (List.mem_cons_self s rest)
    simp only [lineScan, hs]
    exact ih (fun x hx => h x (List.mem_cons.mpr (Or.inr hx)))

lemma blockScan_spec (ends : List (List Char)) (hay : List Char) :
    ∀ (L : List (List Char)) (i : Nat) (acc : Option (Nat × Nat × List Char))
      (r : Nat × Nat × List Char),
      blockScan ends hay L i acc = some r →
      acc = some r ∨
        ∃ j s, L[j]? = some s ∧ strFind s hay = some r.1 ∧
          r.2.1 = s.length ∧ r.2.2 = (ends[i + j]?).getD [] := by
  intro L
  induction L with
  | nil =>
    intro i acc r h
    exact Or.inl h
  | cons s rest ih =>
    intro i acc r h
    simp only [blockScan] at h
    rcases ih (i + 1) _ r h with hacc2 | ⟨j, s2, hj, hfind, hlen, hend⟩
    · -- the accumulator passed on was already `some r`
      revert hacc2
      cases hfs : strFind s hay with
      | none =>
        intro hacc2
        exact Or.inl hacc2
      | some pos =>
        cases acc with
        | none =>
          intro hacc2
          refine Or.inr ⟨0, s, ?_, ?_, ?_, ?_⟩
          · exact List.getElem?_cons_zero
          · rw [← Option.some.injEq _ _ |>.mpr rfl] at hacc2
            injection hacc2 with hr
            rw [← hr]
            exact hfs
          · injection hacc2 with hr
            rw [← hr]
          · injection hacc2 with hr
            rw [← hr]
            simp
        | some best =>
          intro hacc2
          by_cases hlt : pos < best.1
          · simp only [hlt, if_true] at hacc2
            refine Or.inr ⟨0, s, List.getElem?_cons_zero, ?_, ?_, ?_⟩
            · injection hacc2 with hr; rw [← hr]; exact hfs
            · injection hacc2 with hr; rw [← hr]
            · injection hacc2 with hr; rw [← hr]; simp
          · simp only [hlt, if_false] at hacc2
            exact Or.inl hacc2
    · refine Or.inr ⟨j + 1, s2, ?_, hfind, hlen, ?_⟩
      · rw [List.getElem?_cons_succ]
        exact hj
      · have harith : i + (j + 1) = i + 1 + j := by omega
        rw [harith]
        exact hend

lemma wfConfig_unpack (cfg : LanguageConfig) (hwf : wfConfig cfg = true) :
    (∀ t ∈ cfg.line_comment, t ≠ []) ∧
    (∀ t ∈ cfg.block_comment_start, t ≠ []) ∧
    (∀ t ∈ cfg.block_comment_end, t ≠ []) ∧
    cfg.block_comment_start.length = cfg.block_comment_end.length := by
  simp only [wfConfig, Bool.and_eq_true, List.all_eq_true, Bool.not_eq_true',
    List.isEmpty_eq_true, beq_iff_eq] at hwf
  obtain ⟨⟨⟨h1, h2⟩, h3⟩, h4⟩ := hwf
  refine ⟨fun t ht => ?_, fun t ht => ?_, fun t ht => ?_, h4⟩
  · intro he; exact absurd (h1 t ht) (by simp [he, List.isEmpty_eq_true])
  · intro he; exact absurd (h2 t ht) (by simp [he, List.isEmpty_eq_true])
  · intro he; exact absurd (h3 t ht) (by simp [he, List.isEmpty_eq_true])

lemma blockScan_wf (cfg : LanguageConfig) (hwf : wfConfig cfg = true)
    (hay : List Char) (bp bl : Nat) (me : List Char)
    (h : blockScan cfg.block_comment_end hay cfg.block_comment_start 0 none =
      some (bp, bl, me)) :
    0 < bl ∧ me ≠ [] ∧ bp + bl ≤ hay.length := by
  rcases blockScan_spec cfg.block_comment_end hay cfg.block_comment_start 0 none
      (bp, bl, me) h with hacc | ⟨j, s, hj, hfind, hlen, hend⟩
  · cases hacc
  · obtain ⟨hline, hstart, hend2, heq⟩ := wfConfig_unpack cfg hwf
    obtain ⟨hjlt, hjget⟩ := List.getElem?_eq_some.mp hj
    have hsmem : s ∈ cfg.block_comment_start := hjget ▸ List.getElem_mem hjlt
    have hsne : s ≠ [] := hstart s hsmem
    have hble : 0 < bl := by
      simp only at hlen
      rw [hlen]
      exact List.length_pos.mpr hsne
    have hjend : j < cfg.block_comment_end.length := heq ▸ hjlt
    have hendget : cfg.block_comment_end[(0 + j)]? =
        some (cfg.block_comment_end[j]) := by
      simp only [Nat.zero_add]
      exact List.getElem?_eq_getElem hjend
    have hmene : me ≠ [] := by
      simp only at hend
      rw [hend, hendget]
      exact hend2 _ (List.getElem_mem hjend)
    refine ⟨hble, hmene, ?_⟩
    have := strFind_le s hay bp hfind
    simp only at hlen
    omega

lemma stepInBlockFound (cfg : LanguageConfig) (f : Nat) (rem cEnd : List Char)
    (hasCode : Bool) (ep : Nat) (hf : strFind cEnd rem = some ep) :
    classifyLoop cfg (f + 1) rem true cEnd hasCode =
      classifyLoop cfg f (rem.drop (ep + cEnd.length)) false [] hasCode := by
  simp only [classifyLoop, if_true, hf]

lemma stepInBlockStay (cfg : LanguageConfig) (f : Nat) (rem cEnd : List Char)
    (hasCode : Bool) (hf : strFind cEnd rem = none) :
    classifyLoop cfg (f + 1) rem true cEnd hasCode =
      some (if hasCode then LineType.Code else LineType.Comment, true, cEnd) := by
  simp only [classifyLoop, if_true, hf]

lemma stepBlockOnly (cfg : LanguageConfig) (f : Nat) (rem cEnd : List Char)
    (hasCode : Bool) (bp bl : Nat) (me : List Char)
    (hbs : blockScan cfg.block_comment_end rem cfg.block_comment_start 0 none =
      some (bp, bl, me))
    (hls : lineScan rem cfg.line_comment none = none) :
    classifyLoop cfg (f + 1) rem false cEnd hasCode =
      classifyLoop cfg f (rem.drop (bp + bl)) true me
        (hasCode || (decide (0 < bp) && !(trim (rem.take bp)).isEmpty)) := by
  simp only [classifyLoop, hbs, hls, Bool.false_eq_true, if_false]

lemma stepBlockFirst (cfg : LanguageConfig) (f : Nat) (rem cEnd : List Char)
    (hasCode : Bool) (bp bl : Nat) (me : List Char) (lp : Nat)
    (hbs : blockScan cfg.block_comment_end rem cfg.block_comment_start 0 none =
      some (bp, bl, me))
    (hls : lineScan rem cfg.line_comment none = some lp)
    (hle : bp ≤ lp) :
    classifyLoop cfg (f + 1) rem false cEnd hasCode =
      classifyLoop cfg f (rem.drop (bp + bl)) true me
        (hasCode || (decide (0 < bp) && !(trim (rem.take bp)).isEmpty)) := by
  simp only [classifyLoop, hbs, hls, Bool.false_eq_true, if_false, hle, if_true]

lemma stepLineOnly (cfg : LanguageConfig) (f : Nat) (rem cEnd : List Char)
    (hasCode : Bool) (lp : Nat)
    (hbs : blockScan cfg.block_comment_end rem cfg.block_comment_start 0 none =
      none)
    (hls : lineScan rem cfg.line_comment none = some lp) :
    classifyLoop cfg (f + 1) rem false cEnd hasCode =
      some (if hasCode || (decide (0 < lp) && !(trim (rem.take lp)).isEmpty) then
              LineType.Code else LineType.Comment, false, cEnd) := by
  simp only [classifyLoop, hbs, hls, Bool.false_eq_true, if_false]

lemma stepLineBeforeBlock (cfg : LanguageConfig) (f : Nat) (rem cEnd : List Char)
    (hasCode : Bool) (bp bl : Nat) (me : List Char) (lp : Nat)
    (hbs : blockScan cfg.block_comment_end rem cfg.block_comment_start 0 none =
      some (bp, bl, me))
    (hls : lineScan rem cfg.line_comment none = some lp)
    (hgt : ¬ bp ≤ lp) :
    classifyLoop cfg (f + 1) rem false cEnd hasCode =
      some (if hasCode || (decide (0 < lp) && !(trim (rem.take lp)).isEmpty) then
              LineType.Code else LineType.Comment, false, cEnd) := by
  simp only [classifyLoop, hbs, hls, Bool.false_eq_true, if_false, hgt]

lemma stepPlain (cfg : LanguageConfig) (f : Nat) (rem cEnd : List Char)
    (hasCode : Bool)
    (hbs : blockScan cfg.block_comment_end rem cfg.block_comment_start 0 none =
      none)
    (hls : lineScan rem cfg.line_comment none = none) :
    classifyLoop cfg (f + 1) rem false cEnd hasCode =
      some (if hasCode || !(trim rem).isEmpty then LineType.Code
            else if (trim rem).isEmpty then LineType.Blank else LineType.Code,
            false, cEnd) := by
  simp only [classifyLoop, hbs, hls, Bool.false_eq_true, if_false]

lemma classifyLoop_some (cfg : LanguageConfig) (hwf : wfConfig cfg = true) :
    ∀ (fuel : Nat) (rem : List Char) (inB : Bool) (cEnd : List Char)
      (hasCode : Bool),
      rem.length + (if inB = true ∧ cEnd = [] then 1 else 0) < fuel →
      ∃ r, classifyLoop cfg fuel rem inB cEnd hasCode = some r := by
  intro fuel
  induction fuel with
  | zero =>
    intro rem inB cEnd hasCode h
    exact absurd h (Nat.not_lt_zero _)
  | succ f ih =>
    intro rem inB cEnd hasCode h
    cases inB with
    | true =>
      by_cases hce : cEnd = []
      · subst hce
        rw [if_pos ⟨rfl, rfl⟩] at h
        have hstep := stepInBlockFound cfg f rem [] hasCode 0 (strFind_nil_needle rem)
        have hrw : rem.drop (0 + List.length ([] : List Char)) = rem := by simp
        rw [hrw] at hstep
        rw [hstep]
        apply ih rem false [] hasCode
        rw [if_neg (by simp)]
        omega
      · rw [if_neg (fun hand => hce hand.2)] at h
        cases hf : strFind cEnd rem with
        | none => exact ⟨_, stepInBlockStay cfg f rem cEnd hasCode hf⟩
        | some ep =>
          rw [stepInBlockFound cfg f rem cEnd hasCode ep hf]
          apply ih _ false [] hasCode
          rw [if_neg (by simp)]
          have hb := strFind_le cEnd rem ep hf
          have hclen : 0 < cEnd.length := List.length_pos.mpr hce
          rw [List.length_drop]
          omega
    | false =>
      rw [if_neg (by simp)] at h
      cases hbs : blockScan cfg.block_comment_end rem cfg.block_comment_start 0 none with
      | none =>
        cases hls : lineScan rem cfg.line_comment none with
        | none => exact ⟨_, stepPlain cfg f rem cEnd hasCode hbs hls⟩
        | some lp => exact ⟨_, stepLineOnly cfg f rem cEnd hasCode lp hbs hls⟩
      | some r =>
        obtain ⟨bp, bl, me⟩ := r
        obtain ⟨hbl, hme, hble⟩ := blockScan_wf cfg hwf rem bp bl me hbs
        cases hls : lineScan rem cfg.line_comment none with
        | none =>
          rw [stepBlockOnly cfg f rem cEnd hasCode bp bl me hbs hls]
          apply ih _ true me _
          rw [if_neg (fun hand => hme hand.2), List.length_drop]
          omega
        | some lp =>
          by_cases hle : bp ≤ lp
          · rw [stepBlockFirst cfg f rem cEnd hasCode bp bl me lp hbs hls hle]
            apply ih _ true me _
            rw [if_neg (fun hand => hme hand.2), List.length_drop]
            omega
          · exact ⟨_, stepLineBeforeBlock cfg f rem cEnd hasCode bp bl me lp hbs hls hle⟩

/-- C8: for every input line, every classifier state and every profile of the
registry (all of whose comment tokens are non-empty), the scanning loop of
`classify_line` terminates within its fuel and returns a classification: the
classification of a line is total for the registry's profiles. -/
theorem C8_classification_total :
    registry.all wfConfig = true ∧
    ∀ cfg ∈ registry, ∀ (line : List Char) (inB : Bool) (cEnd : List Char),
      ∃ r, classify_line cfg line inB cEnd = some r := by
  refine ⟨by decide, ?_⟩
  intro cfg hc line inB cEnd
  have hwf : wfConfig cfg = true :=
    List.all_eq_true.mp (by decide) cfg hc
  apply classifyLoop_some cfg hwf (line.length + 2) line inB cEnd false
  by_cases hcond : inB = true ∧ cEnd = []
  · rw [if_pos hcond]; omega
  · rw [if_neg hcond]; omega

/-- Witness for C8 at a concrete registry profile, line and state. -/
theorem C8_classification_total_witness :
    ∃ r, classify_line rustConfig "let x = 1;".data false [] = some r :=
  C8_classification_total.2 rustConfig (by decide) "let x = 1;".data false []

lemma analyzeReads_counts (cfg : LanguageConfig) :
    ∀ (reads : List (Except Unit (List Char))) (inB : Bool) (cEnd : List Char)
      (stats s : FileStats),
      analyzeReads cfg reads inB cEnd stats = some s →
      s.blank_lines + s.comment_lines + s.code_lines =
        stats.blank_lines + stats.comment_lines + stats.code_lines +
          reads.length ∧
      s.files = stats.files := by
  intro reads
  induction reads with
  | nil =>
    intro inB cEnd stats s h
    simp only [analyzeReads, Option.some.injEq] at h
    subst h
    simp
  | cons r rest ih =>
    intro inB cEnd stats s h
    cases r with
    | error e => simp [analyzeReads] at h
    | ok l =>
      simp only [analyzeReads] at h
      by_cases ht : (trim l).isEmpty = true
      · rw [if_pos ht] at h
        have hr := ih _ _ _ _ h
        simp only [List.length_cons] at hr ⊢
        exact ⟨by omega, hr.2⟩
      · rw [if_neg ht] at h
        cases hcl : classify_line cfg (trim l) inB cEnd with
        | none => rw [hcl] at h; simp at h
        | some res =>
          obtain ⟨lt, inB2, cEnd2⟩ := res
          rw [hcl] at h
          cases lt with
          | Blank =>
            have hr := ih _ _ _ _ h
            simp only [List.length_cons] at hr ⊢
            exact ⟨by omega, hr.2⟩
          | Comment =>
            have hr := ih _ _ _ _ h
            simp only [List.length_cons] at hr ⊢
            exact ⟨by omega, hr.2⟩
          | Code =>
            have hr := ih _ _ _ _ h
            simp only [List.length_cons] at hr ⊢
            exact ⟨by omega, hr.2⟩

/-- C1: for every file successfully analyzed, the returned FileStats satisfies
blankLines + commentLines + codeLines = the total number of physical lines
read from the file, and files = 1. -/
theorem C1_line_coverage :
    ∀ (cfg : LanguageConfig) (reads : List (Except Unit (List Char)))
      (s : FileStats),
      analyze_file cfg (some reads) = some s →
      s.blank_lines + s.comment_lines + s.code_lines = reads.length ∧
      s.files = 1 := by
  intro cfg reads s h
  simp only [analyze_file] at h
  have hr := analyzeReads_counts cfg reads false [] ⟨1, 0, 0, 0⟩ s h
  simpa using hr

/-- Witness for C1 on a concrete one-line file. -/
theorem C1_line_coverage_witness :
    (⟨1, 0, 0, 1⟩ : FileStats).blank_lines +
        (⟨1, 0, 0, 1⟩ : FileStats).comment_lines +
        (⟨1, 0, 0, 1⟩ : FileStats).code_lines =
      ([Except.ok "let y = 2;".data] : List (Except Unit (List Char))).length ∧
    (⟨1, 0, 0, 1⟩ : FileStats).files = 1 :=
  C1_line_coverage rustConfig [Except.ok "let y = 2;".data] ⟨1, 0, 0, 1⟩
    (by decide)

/-- C5: the three consecutive lines of a multi-line block comment classify,
in order, Comment, Comment, Code, with the in-block state carried across the
lines and cleared by the closing token on the third. -/
theorem C5_multiline_block :
    classify_line rustConfig "/* start".data false [] =
      some (LineType.Comment, true, "*/".data) ∧
    classify_line rustConfig "still comment".data true "*/".data =
      some (LineType.Comment, true, "*/".data) ∧
    classify_line rustConfig "end */ int y;".data true "*/".data =
      some (LineType.Code, false, []) :=
  ⟨by decide, by decide, by decide⟩

/-- C3 counterexample: with the Rust profile, a whitespace-only line read
while a block comment is open is counted Blank (the blank check in
`analyze_file` runs before classification, regardless of state), not Comment
as the claim requires: the two-line file `/* x`, `   ` yields one comment and
one blank line rather than two comment lines. -/
theorem C3_counterexample :
    analyze_file rustConfig
        (some [Except.ok "/* x".data, Except.ok "   ".data]) =
      some ⟨1, 1, 1, 0⟩ ∧
    ¬ analyze_file rustConfig
        (some [Except.ok "/* x".data, Except.ok "   ".data]) =
      some ⟨1, 0, 2, 0⟩ :=
  ⟨by decide, by decide⟩

/-- C3 amended: a line read while the classifier awaits end token E, whose
trimmed content does not contain E, is counted as a comment line when its
trimmed content is non-empty, and as a blank line when it is whitespace-only
(the blank check precedes classification regardless of the open
block-comment state); the awaiting-E state is unchanged either way. -/
theorem C3_in_block_lines :
    ∀ (cfg : LanguageConfig) (l : List Char)
      (rest : List (Except Unit (List Char))) (E : List Char)
      (stats : FileStats),
      strFind E (trim l) = none →
      analyzeReads cfg (Except.ok l :: rest) true E stats =
        if (trim l).isEmpty then
          analyzeReads cfg rest true E
            { stats with blank_lines := stats.blank_lines + 1 }
        else
          analyzeReads cfg rest true E
            { stats with comment_lines := stats.comment_lines + 1 } := by
  intro cfg l rest E stats hE
  by_cases ht : (trim l).isEmpty = true
  · rw [if_pos ht]
    simp only [analyzeReads]
    rw [if_pos ht]
  · rw [if_neg ht]
    simp only [analyzeReads]
    rw [if_neg ht]
    have hcl : classify_line cfg (trim l) true E =
        some (LineType.Comment, true, E) := by
      unfold classify_line
      have h2 : (trim l).length + 2 = ((trim l).length + 1) + 1 := rfl
      rw [h2, stepInBlockStay cfg ((trim l).length + 1) (trim l) E false hE]
      simp
    rw [hcl]

/-- Witness for the amended C3 on a concrete non-blank in-block line. -/
theorem C3_in_block_lines_witness :
    analyzeReads rustConfig [Except.ok "still going".data] true "*/".data
        ⟨1, 0, 0, 0⟩ =
      if (trim "still going".data).isEmpty then
        analyzeReads rustConfig [] true "*/".data ⟨1, 1, 0, 0⟩
      else
        analyzeReads rustConfig [] true "*/".data ⟨1, 0, 1, 0⟩ :=
  C3_in_block_lines rustConfig "still going".data [] "*/".data ⟨1, 0, 0, 0⟩
    (by decide)

/-- C4: with no open block comment, when the earliest line-comment token sits
at position lp and every block-comment start the scan finds lies strictly
later, the line resolves immediately: Code when code was already marked in
the loop or non-whitespace text precedes lp, Comment otherwise; in
particular a trailing line comment gives Code and a pure line comment gives
Comment. -/
theorem C4_line_comment_resolution :
    (∀ (cfg : LanguageConfig) (f : Nat) (rem cEnd : List Char)
       (hasCode : Bool) (lp : Nat),
       lineScan rem cfg.line_comment none = some lp →
       (∀ r, blockScan cfg.block_comment_end rem cfg.block_comment_start 0
          none = some r → lp < r.1) →
       classifyLoop cfg (f + 1) rem false cEnd hasCode =
         some (if hasCode || (decide (0 < lp) && !(trim (rem.take lp)).isEmpty)
                 then LineType.Code else LineType.Comment, false, cEnd)) ∧
    classify_line rustConfig "int x = 5; // note".data false [] =
      some (LineType.Code, false, []) ∧
    classify_line rustConfig "// just a note".data false [] =
      some (LineType.Comment, false, []) := by
  refine ⟨?_, by decide, by decide⟩
  intro cfg f rem cEnd hasCode lp hls hb
  cases hbs : blockScan cfg.block_comment_end rem cfg.block_comment_start 0 none with
  | none => exact stepLineOnly cfg f rem cEnd hasCode lp hbs hls
  | some r =>
    obtain ⟨bp, bl, me⟩ := r
    have hlt := hb (bp, bl, me) hbs
    simp only at hlt
    exact stepLineBeforeBlock cfg f rem cEnd hasCode bp bl me lp hbs hls
      (by omega)

/-- Witness for the general part of C4 at a concrete profile and line. -/
theorem C4_line_comment_resolution_witness :
    classifyLoop rustConfig (7 + 1) "a // b".data false [] false =
      some (if false ||
              (decide (0 < 2) && !(trim (("a // b".data).take 2)).isEmpty)
              then LineType.Code else LineType.Comment, false, []) :=
  C4_line_comment_resolution.1 rustConfig 7 "a // b".data [] false 2
    (by decide)
    (fun r hr => by
      rw [show blockScan rustConfig.block_comment_end "a // b".data
            rustConfig.block_comment_start 0 none = none from by decide] at hr
      exact Option.noConfusion hr)

/-- C6: when the earliest block-comment start and the earliest line-comment
token occur at the same offset, the block comment wins: the loop enters the
in-block state awaiting that pair's end token instead of resolving the rest
of the line as a line comment; a concrete tie shows the carried state. -/
theorem C6_tie_block_wins :
    (∀ (cfg : LanguageConfig) (f : Nat) (rem cEnd : List Char)
       (hasCode : Bool) (bp bl : Nat) (me : List Char) (lp : Nat),
       blockScan cfg.block_comment_end rem cfg.block_comment_start 0 none =
         some (bp, bl, me) →
       lineScan rem cfg.line_comment none = some lp →
       bp = lp →
       classifyLoop cfg (f + 1) rem false cEnd hasCode =
         classifyLoop cfg f (rem.drop (bp + bl)) true me
           (hasCode || (decide (0 < bp) && !(trim (rem.take bp)).isEmpty))) ∧
    classify_line tieConfig "//* x".data false [] =
      some (LineType.Comment, true, "*//".data) := by
  refine ⟨?_, by decide⟩
  intro cfg f rem cEnd hasCode bp bl me lp hbs hls heq
  exact stepBlockFirst cfg f rem cEnd hasCode bp bl me lp hbs hls (by omega)

/-- Witness for the tie-break step of C6 at a concrete profile and line. -/
theorem C6_tie_block_wins_witness :
    classifyLoop tieConfig (4 + 1) "//* x".data false [] false =
      classifyLoop tieConfig 4 (("//* x".data).drop (0 + 3)) true "*//".data
        (false || (decide (0 < 0) && !(trim (("//* x".data).take 0)).isEmpty)) :=
  C6_tie_block_wins.1 tieConfig 4 "//* x".data [] false 0 3 "*//".data 0
    (by decide) (by decide) rfl

lemma agStep_right_comm (acc : List Char → FileStats)
    (p q : List Char × FileStats) :
    agStep (agStep acc p) q = agStep (agStep acc q) p := by
  funext k
  simp only [agStep]
  split_ifs <;>
    first
      | rfl
      | rw [fs_add_assoc, fs_add_assoc, fs_add_comm p.2 q.2]

lemma foldl_agStep_perm (r1 r2 : List (List Char × FileStats))
    (hp : List.Perm r1 r2) :
    ∀ acc, List.foldl agStep acc r1 = List.foldl agStep acc r2 := by
  induction hp with
  | nil => intro acc; rfl
  | cons x h ih => intro acc; simp only [List.foldl_cons]; exact ih _
  | swap x y l => intro acc; simp only [List.foldl_cons]; rw [agStep_right_comm]
  | trans h1 h2 ih1 ih2 => intro acc; rw [ih1, ih2]

lemma foldl_agStep_split :
    ∀ (l : List (List Char × FileStats)) (acc : List Char → FileStats)
      (k : List Char),
      List.foldl agStep acc l k =
        acc k + List.foldl agStep (fun _ => zeroStats) l k := by
  intro l
  induction l with
  | nil => intro acc k; exact (fs_add_zero _).symm
  | cons p t ih =>
    intro acc k
    simp only [List.foldl_cons]
    rw [ih (agStep acc p) k, ih (agStep (fun _ => zeroStats) p) k]
    simp only [agStep]
    by_cases hk : k = p.1
    · simp only [hk, if_true, if_pos rfl]
      rw [fs_zero_add, fs_add_assoc]
    · simp only [hk, if_false, if_neg hk]
      rw [fs_zero_add]

/-- C2: FileStats addition is commutative and associative with identity
⟨0,0,0,0⟩, and consequently aggregating a fixed multiset of per-file results
in any permutation, or via any parallel split of the list, yields the
identical aggregate map. -/
theorem C2_monoid_aggregation :
    (∀ a b : FileStats, a + b = b + a) ∧
    (∀ a b c : FileStats, a + b + c = a + (b + c)) ∧
    (∀ a : FileStats, a + zeroStats = a ∧ zeroStats + a = a) ∧
    (∀ r1 r2 : List (List Char × FileStats), List.Perm r1 r2 →
      aggregate r1 = aggregate r2) ∧
    (∀ r1 r2 : List (List Char × FileStats),
      aggregate (r1 ++ r2) = fun k => aggregate r1 k + aggregate r2 k) := by
  refine ⟨fs_add_comm, fs_add_assoc,
    fun a => ⟨fs_add_zero a, fs_zero_add a⟩, ?_, ?_⟩
  · intro r1 r2 hp
    unfold aggregate
    exact foldl_agStep_perm r1 r2 hp _
  · intro r1 r2
    funext k
    unfold aggregate
    rw [List.foldl_append]
    exact foldl_agStep_split r2 _ k

/-- Witness for the permutation part of C2 on a concrete two-element result
list. -/
theorem C2_monoid_aggregation_witness :
    aggregate [("Rust".data, (⟨1, 2, 3, 4⟩ : FileStats)),
               ("Go".data, (⟨1, 0, 0, 5⟩ : FileStats))] =
      aggregate [("Go".data, (⟨1, 0, 0, 5⟩ : FileStats)),
                 ("Rust".data, (⟨1, 2, 3, 4⟩ : FileStats))] :=
  C2_monoid_aggregation.2.2.2.1 _ _
    (List.Perm.swap ("Go".data, (⟨1, 0, 0, 5⟩ : FileStats))
      ("Rust".data, (⟨1, 2, 3, 4⟩ : FileStats)) [])

lemma analyzeReads_error (cfg : LanguageConfig) :
    ∀ (reads : List (Except Unit (List Char))) (inB : Bool) (cEnd : List Char)
      (stats : FileStats),
      Except.error () ∈ reads → analyzeReads cfg reads inB cEnd stats = none := by
  intro reads
  induction reads with
  | nil => intro inB cEnd stats h; cases h
  | cons r rest ih =>
    intro inB cEnd stats h
    cases r with
    | error e => rfl
    | ok l =>
      have hmem : Except.error () ∈ rest := by
        rcases List.mem_cons.mp h with h1 | h2
        · exact absurd h1 (by simp)
        · exact h2
      simp only [analyzeReads]
      by_cases ht : (trim l).isEmpty = true
      · rw [if_pos ht]; exact ih _ _ _ hmem
      · rw [if_neg ht]
        cases hcl : classify_line cfg (trim l) inB cEnd with
        | none => rfl
        | some res =>
          obtain ⟨lt, inB2, cEnd2⟩ := res
          cases lt <;> exact ih _ _ _ hmem

/-- C7: a failed file analysis (open failure, or any line read error) yields
an error with no partial FileStats, and the aggregation pipeline drops it:
the aggregate over a list containing the failed file equals the aggregate
with that file removed, so the failure contributes zero to every counter of
every language and does not abort the processing of the other files. -/
theorem C7_failed_file_dropped :
    (∀ cfg : LanguageConfig, analyze_file cfg none = none) ∧
    (∀ (cfg : LanguageConfig) (reads : List (Except Unit (List Char)))
       (inB : Bool) (cEnd : List Char) (stats : FileStats),
       Except.error () ∈ reads →
       analyzeReads cfg reads inB cEnd stats = none) ∧
    (∀ (pre post : List (FileInput × LanguageConfig)) (f : FileInput)
       (cfg : LanguageConfig),
       analyze_file cfg f = none →
       analyze_files (pre ++ (f, cfg) :: post) = analyze_files (pre ++ post)) := by
  refine ⟨fun _ => rfl, analyzeReads_error, ?_⟩
  intro pre post f cfg hf
  unfold analyze_files
  rw [List.filterMap_append, List.filterMap_append, List.filterMap_cons]
  simp only [hf, Option.map_none']

/-- Witness for C7: one unopenable file next to a good file is dropped from
the aggregate. -/
theorem C7_failed_file_dropped_witness :
    analyze_files [((some [Except.ok "x = 1".data] : FileInput), yamlConfig),
                   ((none : FileInput), rustConfig)] =
      analyze_files [((some [Except.ok "x = 1".data] : FileInput), yamlConfig)] :=
  C7_failed_file_dropped.2.2
    [((some [Except.ok "x = 1".data] : FileInput), yamlConfig)] []
    (none : FileInput) rustConfig rfl

lemma blankish_loop (cfg : LanguageConfig) (htok : tokensNonWs cfg = true) :
    ∀ (rem : List Char), Blankish cfg rem →
      ∀ (fuel : Nat) (cEnd : List Char), rem.length < fuel →
        ∃ e, classifyLoop cfg fuel rem false cEnd false =
          some (LineType.Blank, false, e) := by
  have htok2 := htok
  simp only [tokensNonWs, Bool.and_eq_true, List.all_eq_true,
    Bool.not_eq_true'] at htok2
  obtain ⟨hlineTok, hstartTok⟩ := htok2
  intro rem hb
  induction hb with
  | ws s hs =>
    intro fuel cEnd hlen
    cases fuel with
    | zero => exact absurd hlen (Nat.not_lt_zero _)
    | succ f =>
      have hall : s.all Char.isWhitespace = true := by
        rw [← trim_eq_nil_iff]
        exact List.isEmpty_eq_true.mp hs
      have hnb : ∀ t ∈ cfg.block_comment_start, strFind t s = none := by
        intro t ht
        exact strFind_none_of_ws t s hall (hstartTok t ht)
      have hnl : ∀ t ∈ cfg.line_comment, strFind t s = none := by
        intro t ht
        exact strFind_none_of_ws t s hall (hlineTok t ht)
      rw [stepPlain cfg f s cEnd false
        (blockScan_none cfg.block_comment_end s cfg.block_comment_start 0 hnb)
        (lineScan_none s cfg.line_comment hnl)]
      refine ⟨cEnd, ?_⟩
      rw [hs]
      simp
  | block rem bp bl me ep hbs hlp hws hbl hme hfind hrest ih =>
    intro fuel cEnd hlen
    have hspec := blockScan_spec cfg.block_comment_end rem
      cfg.block_comment_start 0 none (bp, bl, me) hbs
    have hble : bp + bl ≤ rem.length := by
      rcases hspec with h | ⟨j, s, hj, hfindS, hlenS, hendS⟩
      · cases h
      · have := strFind_le s rem bp hfindS
        simp only at hlenS
        omega
    have hlen1 : (rem.drop (bp + bl)).length = rem.length - (bp + bl) :=
      List.length_drop _ _
    have hfl := strFind_le me (rem.drop (bp + bl)) ep hfind
    have hmelen : 0 < me.length := List.length_pos.mpr hme
    rw [hlen1] at hfl
    cases fuel with
    | zero => exact absurd hlen (Nat.not_lt_zero _)
    | succ f =>
      have hstep : classifyLoop cfg (f + 1) rem false cEnd false =
          classifyLoop cfg f (rem.drop (bp + bl)) true me
            (false || (decide (0 < bp) && !(trim (rem.take bp)).isEmpty)) := by
        cases hls : lineScan rem cfg.line_comment none with
        | none => exact stepBlockOnly cfg f rem cEnd false bp bl me hbs hls
        | some lp =>
          exact stepBlockFirst cfg f rem cEnd false bp bl me lp hbs hls
            (hlp lp hls)
      have hcode0 : (false || (decide (0 < bp) && !(trim (rem.take bp)).isEmpty))
          = false := by
        rw [hws]
        simp
      rw [hstep, hcode0]
      cases f with
      | zero =>
        exfalso
        omega
      | succ f2 =>
        rw [stepInBlockFound cfg f2 (rem.drop (bp + bl)) me false ep hfind]
        apply ih (f2) []
        rw [List.length_drop, List.length_drop]
        omega

/-- C9: a line that consists only of whitespace and of block comments opened
and closed on that same line classifies Blank (not Comment) when started from
the no-block-comment state, and leaves the state with no open block comment;
concretely, the analyzer counts both `/**/` and `  /* x */  ` as blank. -/
theorem C9_closed_blocks_blank :
    (∀ (cfg : LanguageConfig) (rem : List Char), tokensNonWs cfg = true →
       Blankish cfg rem → ∀ cEnd : List Char,
       ∃ e, classify_line cfg rem false cEnd =
         some (LineType.Blank, false, e)) ∧
    analyze_file rustConfig (some [Except.ok "/**/".data]) =
      some ⟨1, 1, 0, 0⟩ ∧
    analyze_file rustConfig (some [Except.ok "  /* x */  ".data]) =
      some ⟨1, 1, 0, 0⟩ := by
  refine ⟨?_, by decide, by decide⟩
  intro cfg rem htok hb cEnd
  exact blankish_loop cfg htok rem hb (rem.length + 2) cEnd (by omega)

/-- Witness for C9 at a concrete line holding one closed block comment. -/
theorem C9_closed_blocks_blank_witness :
    ∃ e, classify_line rustConfig "/* x */".data false [] =
      some (LineType.Blank, false, e) :=
  C9_closed_blocks_blank.1 rustConfig "/* x */".data (by decide)
    (Blankish.block "/* x */".data 0 2 "*/".data 3 (by decide)
      (fun lp hlp => by
        rw [show lineScan "/* x */".data rustConfig.line_comment none = none
          from by decide] at hlp
        exact Option.noConfusion hlp)
      (by decide) (by decide) (by decide) (by decide)
      (Blankish.ws _ (by decide)))
    []

lemma trim_pad (w1 l w2 : List Char)
    (h1 : w1.all Char.isWhitespace = true)
    (h2 : w2.all Char.isWhitespace = true) :
    trim (w1 ++ l ++ w2) = trim l := by
  unfold trim
  rw [List.append_assoc, dropWhile_append_all Char.isWhitespace w1 (l ++ w2) h1]
  congr 1
  induction l with
  | nil =>
    simp only [List.nil_append]
    rw [List.dropWhile_eq_nil_iff.mpr (List.all_eq_true.mp h2)]
    rfl
  | cons c t ih =>
    by_cases hc : Char.isWhitespace c = true
    · simp only [List.cons_append, List.dropWhile_cons, hc, if_true]
      exact ih
    · simp only [List.cons_append, List.dropWhile_cons, hc, Bool.false_eq_true,
        if_false]
      rw [List.reverse_cons, List.reverse_cons, List.reverse_append,
        List.append_assoc]
      exact dropWhile_append_all Char.isWhitespace w2.reverse _
        (by rw [List.all_reverse]; exact h2)

/-- C10: counting a physical line is invariant under adding leading and
trailing whitespace to it: the analyzer treats a padded line exactly as the
unpadded one, because each line is trimmed before the blank check and before
classification, so it falls in the same category and leaves the same state. -/
theorem C10_padding_invariant :
    ∀ (cfg : LanguageConfig) (w1 l w2 : List Char)
      (rest : List (Except Unit (List Char))) (inB : Bool) (cEnd : List Char)
      (stats : FileStats),
      w1.all Char.isWhitespace = true → w2.all Char.isWhitespace = true →
      analyzeReads cfg (Except.ok (w1 ++ l ++ w2) :: rest) inB cEnd stats =
        analyzeReads cfg (Except.ok l :: rest) inB cEnd stats := by
  intro cfg w1 l w2 rest inB cEnd stats h1 h2
  simp only [analyzeReads]
  rw [trim_pad w1 l w2 h1 h2]

/-- Witness for C10 on a concretely padded code line. -/
theorem C10_padding_invariant_witness :
    analyzeReads rustConfig
        [Except.ok ("  ".data ++ "x = 1;".data ++ " ".data)] false []
        ⟨1, 0, 0, 0⟩ =
      analyzeReads rustConfig [Except.ok "x = 1;".data] false []
        ⟨1, 0, 0, 0⟩ :=
  C10_padding_invariant rustConfig "  ".data "x = 1;".data " ".data [] false
    [] ⟨1, 0, 0, 0⟩ (by decide) (by decide)
